import Mathlib

/-!
Verification of the text-preprocessing pipeline, label encoding, row filtering and
dataset splitting of the news-classification notebooks (bert-sm-pytorch.ipynb).

Strings are modelled as `List Char`.  Character classes of the Python regular
expressions are modelled on `Char.toNat` code points, covering the ASCII range and
the Latin-1 letters (the accent table of the notebook's `remove_accented_chars`
stage).  Each `re.sub` call is embedded as a fuel-based scanner (`subAllF`) driven
by a matcher that mirrors the backtracking semantics of the concrete pattern.
-/

/-- Code points matched by the Python regex class `\s` (and `str.isspace`):
space, tab, LF, CR, VT, FF, the information separators, NEL, NBSP and the
Unicode space separators. -/
def isPySpace (c : Char) : Bool :=
  let n := c.toNat
  n = 32 || n = 9 || n = 10 || n = 13 || n = 11 || n = 12 ||
  n = 28 || n = 29 || n = 30 || n = 31 || n = 133 || n = 160 ||
  n = 5760 || (8192 ≤ n && n ≤ 8202) || n = 8232 || n = 8233 ||
  n = 8239 || n = 8287 || n = 12288

/-- ASCII letters `[a-zA-Z]`. -/
def isAsciiAlpha (c : Char) : Bool :=
  let n := c.toNat
  (97 ≤ n && n ≤ 122) || (65 ≤ n && n ≤ 90)

/-- ASCII digits, the class `\d` on the modelled character range
(Latin-1 has no further decimal digits). -/
def isDigitB (c : Char) : Bool :=
  let n := c.toNat
  48 ≤ n && n ≤ 57

/-- The class `[^a-zA-Z\s]` of `remove_special_characters` keeps exactly
letters and whitespace. -/
def alphaOrSpace (c : Char) : Bool :=
  isAsciiAlpha c || isPySpace c

/-- The class `[\r|\n|\r\n]` of the newline-collapsing `re.sub`: as written in the
source it contains carriage return, the pipe character and line feed. -/
def isNewlineClass (c : Char) : Bool :=
  let n := c.toNat
  n = 13 || n = 124 || n = 10

/-- The class `([{.(-)!}])` of `special_char_pattern`: brace, dot, the range
from `(` to `)`, bang and closing brace (the dash forms the two-character
range, it is not itself a member). -/
def isSpacingSpecial (c : Char) : Bool :=
  let n := c.toNat
  n = 123 || n = 46 || n = 40 || n = 41 || n = 33 || n = 125

/-- Word characters for the regex boundary `\b` (`\w`): ASCII alphanumerics,
underscore, and the Latin-1 letters (code points 192-255 except the
multiplication and division signs). -/
def isWordB (c : Char) : Bool :=
  let n := c.toNat
  isAsciiAlpha c || isDigitB c || n = 95 ||
  (192 ≤ n && n ≤ 255 && !(n = 215) && !(n = 247))

/-- Word status of an optional character (`none` stands for the edge of the
string or a position outside a non-space run, which is never a word char). -/
def wordOpt : Option Char → Bool
  | none => false
  | some c => isWordB c

/-- Regex word boundary `\b` between two adjacent (optional) characters. -/
def bdry (a b : Option Char) : Bool := wordOpt a != wordOpt b

/-- Association-list lookup with decidable equality on the keys. -/
def alist {κ ν : Type} [BEq κ] : List (κ × ν) → κ → Option ν
  | [], _ => none
  | (k, v) :: r, x => if k == x then some v else alist r x

/-- Case-folding table of Python `str.lower` on the modelled range: ASCII
upper-case letters and the Latin-1 upper-case letters (192-222 except 215)
map to their lower-case forms 32 code points higher. -/
def caseTable : List (Char × Char) :=
  [('A', 'a'), ('B', 'b'), ('C', 'c'), ('D', 'd'), ('E', 'e'), ('F', 'f'),
   ('G', 'g'), ('H', 'h'), ('I', 'i'), ('J', 'j'), ('K', 'k'), ('L', 'l'),
   ('M', 'm'), ('N', 'n'), ('O', 'o'), ('P', 'p'), ('Q', 'q'), ('R', 'r'),
   ('S', 's'), ('T', 't'), ('U', 'u'), ('V', 'v'), ('W', 'w'), ('X', 'x'),
   ('Y', 'y'), ('Z', 'z'),
   ('\xc0', '\xe0'), ('\xc1', '\xe1'), ('\xc2', '\xe2'), ('\xc3', '\xe3'),
   ('\xc4', '\xe4'), ('\xc5', '\xe5'), ('\xc6', '\xe6'), ('\xc7', '\xe7'),
   ('\xc8', '\xe8'), ('\xc9', '\xe9'), ('\xca', '\xea'), ('\xcb', '\xeb'),
   ('\xcc', '\xec'), ('\xcd', '\xed'), ('\xce', '\xee'), ('\xcf', '\xef'),
   ('\xd0', '\xf0'), ('\xd1', '\xf1'), ('\xd2', '\xf2'), ('\xd3', '\xf3'),
   ('\xd4', '\xf4'), ('\xd5', '\xf5'), ('\xd6', '\xf6'), ('\xd8', '\xf8'),
   ('\xd9', '\xf9'), ('\xda', '\xfa'), ('\xdb', '\xfb'), ('\xdc', '\xfc'),
   ('\xdd', '\xfd'), ('\xde', '\xfe')]

/-- Python `str.lower`, character-wise, on the modelled range. -/
def pyLower (c : Char) : Char := (alist caseTable c).getD c

/-- Decomposition table for `unicodedata.normalize("NFKD", s).encode("ascii",
"ignore")` on the Latin-1 letters: the accented letters decompose to an ASCII
base letter plus combining marks (which the ascii-ignore step drops); the
Latin-1 letters without a decomposition (ae, eth, o-slash, thorn, sharp s and
their cases) are simply dropped by the ascii-ignore step and have no entry. -/
def accTable : List (Char × List Char) :=
  [('\xc0', ['A']), ('\xc1', ['A']), ('\xc2', ['A']), ('\xc3', ['A']),
   ('\xc4', ['A']), ('\xc5', ['A']), ('\xc7', ['C']),
   ('\xc8', ['E']), ('\xc9', ['E']), ('\xca', ['E']), ('\xcb', ['E']),
   ('\xcc', ['I']), ('\xcd', ['I']), ('\xce', ['I']), ('\xcf', ['I']),
   ('\xd1', ['N']),
   ('\xd2', ['O']), ('\xd3', ['O']), ('\xd4', ['O']), ('\xd5', ['O']),
   ('\xd6', ['O']),
   ('\xd9', ['U']), ('\xda', ['U']), ('\xdb', ['U']), ('\xdc', ['U']),
   ('\xdd', ['Y']),
   ('\xe0', ['a']), ('\xe1', ['a']), ('\xe2', ['a']), ('\xe3', ['a']),
   ('\xe4', ['a']), ('\xe5', ['a']), ('\xe7', ['c']),
   ('\xe8', ['e']), ('\xe9', ['e']), ('\xea', ['e']), ('\xeb', ['e']),
   ('\xec', ['i']), ('\xed', ['i']), ('\xee', ['i']), ('\xef', ['i']),
   ('\xf1', ['n']),
   ('\xf2', ['o']), ('\xf3', ['o']), ('\xf4', ['o']), ('\xf5', ['o']),
   ('\xf6', ['o']),
   ('\xf9', ['u']), ('\xfa', ['u']), ('\xfb', ['u']), ('\xfc', ['u']),
   ('\xfd', ['y']), ('\xff', ['y'])]

/-- NFKD-then-ascii-ignore on one character: ASCII characters are untouched,
Latin-1 letters with a decomposition map to their base letter, every other
non-ASCII character is dropped. -/
def nfkdChar (c : Char) : List Char :=
  if c.toNat < 128 then [c]
  else
    match alist accTable c with
    | some s => s
    | none => []

/-- Positional lookup in a list. -/
def nth {α : Type} : List α → Nat → Option α
  | [], _ => none
  | c :: _, 0 => some c
  | _ :: cs, n + 1 => nth cs n

/-- Indices of the characters of `l` satisfying `p`, in increasing order. -/
def idxWhere (p : Char → Bool) (l : List Char) : List Nat :=
  (List.range l.length).filter (fun i =>
    match nth l i with
    | some c => p c
    | none => false)

/-- Boolean prefix test on character lists. -/
def isPre : List Char → List Char → Bool
  | [], _ => true
  | _ :: _, [] => false
  | a :: as, b :: bs => a == b && isPre as bs

/-- Matcher for the email pattern `\b[^\s]+@[^\s]+[.][^\s]+\b` of
`remove_emails`, at one scan position.  `prev` is the original character just
before the scan position (for the leading boundary).  The whole match lies in
the maximal non-space run at the position; the three greedy `[^\s]+` groups
backtrack, so the chosen at-sign, dot and end are each the largest that still
admit a completion.  Returns the length of the match. -/
def matchEmail (prev : Option Char) (l : List Char) : Option Nat :=
  let run := l.takeWhile (fun c => !(isPySpace c))
  if bdry prev (nth l 0) then
    let es := fun (d : Nat) =>
      (List.range (run.length + 1)).filter (fun e =>
        d + 2 ≤ e && bdry (nth run (e - 1)) (nth run e))
    let ds := fun (a : Nat) =>
      (idxWhere (fun c => c == '.') run).filter (fun d =>
        a + 2 ≤ d && !(es d).isEmpty)
    let as :=
      (idxWhere (fun c => c == '@') run).filter (fun a =>
        1 ≤ a && !(ds a).isEmpty)
    match as.getLast? with
    | none => none
    | some a =>
      match (ds a).getLast? with
      | none => none
      | some d => (es d).getLast?
  else none

/-- Matcher for the pattern `(http|https)://[^\s]*` of `remove_hyperlink`: the
alternation tries `http` first, then `https`, then the literal `://`, then the
greedy tail of non-space characters. -/
def matchHyper (_ : Option Char) (l : List Char) : Option Nat :=
  if isPre ('h' :: 't' :: 't' :: 'p' :: ':' :: '/' :: '/' :: []) l then
    some (7 + ((l.drop 7).takeWhile (fun c => !(isPySpace c))).length)
  else if isPre ('h' :: 't' :: 't' :: 'p' :: 's' :: ':' :: '/' :: '/' :: []) l then
    some (8 + ((l.drop 8).takeWhile (fun c => !(isPySpace c))).length)
  else none

/-- Matcher for the pattern `(\s\d+)` of `remove_digits`: one whitespace
character followed by a maximal run of digits. -/
def matchDigits (_ : Option Char) (l : List Char) : Option Nat :=
  match l with
  | c :: d :: rest =>
    if isPySpace c && isDigitB d then some (2 + (rest.takeWhile isDigitB).length)
    else none
  | _ => none

/-- One pass of `re.sub`: scan left to right; where the matcher fails, emit the
character and move on one position; where it succeeds with length `n`, emit the
replacement and resume after the matched region, remembering its last original
character for the following boundary check.  The fuel argument dominates the
length of the remaining input. -/
def subAllF (m : Option Char → List Char → Option Nat) (rep : List Char) :
    Nat → Option Char → List Char → List Char
  | 0, _, l => l
  | _ + 1, _, [] => []
  | fuel + 1, prev, c :: cs =>
    match m prev (c :: cs) with
    | none => c :: subAllF m rep fuel (some c) cs
    | some n =>
      rep ++ subAllF m rep fuel ((nth (c :: cs) (n - 1)).getD c)
        ((c :: cs).drop (max n 1))

/-- Global regex substitution (the patterns used here never match the empty
string, so a fuel of the input length suffices). -/
def subAll (m : Option Char → List Char → Option Nat) (rep : List Char)
    (l : List Char) : List Char :=
  subAllF m rep l.length none l

/-- Replace each maximal run of characters satisfying `p` by the single
character `r` (the substitutions `re.sub(r"[\r|\n|\r\n]+", " ", doc)` and
`re.sub(" +", " ", doc)`). -/
def collapseRunsF (p : Char → Bool) (r : Char) : Nat → List Char → List Char
  | 0, l => l
  | _ + 1, [] => []
  | fuel + 1, c :: cs =>
    if p c then r :: collapseRunsF p r fuel (cs.dropWhile p)
    else c :: collapseRunsF p r fuel cs

/-- Run-collapsing substitution with sufficient fuel. -/
def collapseRuns (p : Char → Bool) (r : Char) (l : List Char) : List Char :=
  collapseRunsF p r l.length l

/-- Source `remove_emails`: `re.sub(r"\b[^\s]+@[^\s]+[.][^\s]+\b", " ", text)`. -/
def remove_emails (text : List Char) : List Char :=
  subAll matchEmail [' '] text

/-- Source `remove_hyperlink`: `re.sub(r"(http|https)://[^\s]*", " ", text)`. -/
def remove_hyperlink (text : List Char) : List Char :=
  subAll matchHyper [' '] text

/-- Source `remove_digits`: `re.sub(r"(\s\d+)", " ", text)`. -/
def remove_digits (text : List Char) : List Char :=
  subAll matchDigits [' '] text

/-- Source `remove_special_characters`: `re.sub("[^a-zA-Z\s]", " ", text)` -
a one-character class, so a character-wise map. -/
def remove_special_characters (text : List Char) : List Char :=
  text.map (fun c => if alphaOrSpace c then c else ' ')

/-- Source `remove_accented_chars`:
`unicodedata.normalize("NFKD", text).encode("ascii", "ignore").decode(...)`. -/
def remove_accented_chars (text : List Char) : List Char :=
  text.flatMap nfkdChar

/-- The newline-collapsing step `re.sub(r"[\r|\n|\r\n]+", " ", doc)`. -/
def collapse_newlines (doc : List Char) : List Char :=
  collapseRuns isNewlineClass ' ' doc

/-- The special-character isolation step
`special_char_pattern.sub(" \\1 ", doc)` with pattern `([{.(-)!}])`. -/
def special_spacing (doc : List Char) : List Char :=
  doc.flatMap (fun c => if isSpacingSpecial c then [' ', c, ' '] else [c])

/-- The whitespace-collapsing step `re.sub(" +", " ", doc)` (literal space
characters only). -/
def collapse_spaces (doc : List Char) : List Char :=
  collapseRuns (fun c => c == ' ') ' ' doc

/-- Python `str.strip`: drop leading and trailing whitespace. -/
def pyStrip (t : List Char) : List Char :=
  ((t.dropWhile isPySpace).reverse.dropWhile isPySpace).reverse

/-- `" ".join(tokens)`. -/
def joinSpace : List (List Char) → List Char
  | [] => []
  | [t] => t
  | t :: rest => t ++ ' ' :: joinSpace rest

/-- Source `remove_stopwords(text, is_lower_case)`.  The tokenizer and the
stopword list are process-wide resources loaded from nltk; following the spec
they are passed in as explicit immutable configuration.  The body tokenizes,
strips each token, drops the tokens whose lower-cased form is in the stopword
list, and rejoins with single spaces; the `is_lower_case` argument is accepted
but never read, exactly as in the source. -/
def remove_stopwords (tokenize : List Char → List (List Char))
    (stopword_list : List (List Char)) (text : List Char)
    ( is_lower_case : Bool) : List Char :=
  let tokens := tokenize text
  let tokens := tokens.map pyStrip
  let filtered := tokens.filter (fun token =>
    !(stopword_list.contains (token.map pyLower)))
  joinSpace filtered

/-- Source `lemmatize_text`: `" ".join(word.lemma_ if word.lemma_ != "-PRON-"
else word.text for word in nlp(text))`.  The spacy pipeline `nlp` is an
external model, so the lemmatizer is part of the explicit resource record. -/
structure NlpResources where
  tokenize : List Char → List (List Char)
  stopword_list : List (List Char)
  lemmatize : List Char → List Char

/-- The eight boolean toggles of `text_preprocessing`, in the order of the
parameter list of the source function. -/
structure NormalizationConfig where
  isRemoveEmail : Bool
  isRemoveDigits : Bool
  isRemoveHyperLink : Bool
  isRemoveSpecialCharac : Bool
  isRemoveAccentChar : Bool
  text_lower_case : Bool
  text_lemmatization : Bool
  stopword_removal : Bool

/-- Source `text_preprocessing`, body of the per-document loop: the fixed
sequence of conditionally applied stages, in exactly the order of the source
(lower case, emails, hyperlinks, accents, digits, then the three unconditional
steps interleaved with lemmatization, special-character removal and stopword
removal). -/
def text_preprocessing_doc (R : NlpResources) (cfg : NormalizationConfig)
    (doc0 : List Char) : List Char :=
  let doc1 := if cfg.text_lower_case then doc0.map pyLower else doc0
  let doc2 := if cfg.isRemoveEmail then remove_emails doc1 else doc1
  let doc3 := if cfg.isRemoveHyperLink then remove_hyperlink doc2 else doc2
  let doc4 := if cfg.isRemoveAccentChar then remove_accented_chars doc3 else doc3
  let doc5 := if cfg.isRemoveDigits then remove_digits doc4 else doc4
  let doc6 := collapse_newlines doc5
  let doc7 := special_spacing doc6
  let doc8 := if cfg.text_lemmatization then R.lemmatize doc7 else doc7
  let doc9 := if cfg.isRemoveSpecialCharac then remove_special_characters doc8 else doc8
  let doc10 := collapse_spaces doc9
  if cfg.stopword_removal then
    remove_stopwords R.tokenize R.stopword_list doc10 cfg.text_lower_case
  else doc10

/-- Source `text_preprocessing`: the loop over the corpus, appending one
normalized document per input document. -/
def text_preprocessing (R : NlpResources) (cfg : NormalizationConfig)
    (corpus : List (List Char)) : List (List Char) :=
  corpus.map (text_preprocessing_doc R cfg)

/-- The toggle configuration set in the notebook (EMAIL, DIGIT, HYPER_LINK,
ALL_SPEC_CHAR, ACCENT_CHAR, LOWER_CASE and STOPWORD true, LEMMETIZE false). -/
def observedConfig : NormalizationConfig :=
  { isRemoveEmail := true, isRemoveDigits := true, isRemoveHyperLink := true,
    isRemoveSpecialCharac := true, isRemoveAccentChar := true,
    text_lower_case := true, text_lemmatization := false,
    stopword_removal := true }

/-- The configuration with every toggle enabled. -/
def allOnConfig : NormalizationConfig :=
  { isRemoveEmail := true, isRemoveDigits := true, isRemoveHyperLink := true,
    isRemoveSpecialCharac := true, isRemoveAccentChar := true,
    text_lower_case := true, text_lemmatization := true,
    stopword_removal := true }

/-- Fuel-based whitespace splitter (`str.split` with no separator: maximal
non-space words, empty words dropped). -/
def pySplitF : Nat → List Char → List (List Char)
  | 0, _ => []
  | fuel + 1, l =>
    match l.dropWhile isPySpace with
    | [] => []
    | c :: cs =>
      (c :: cs.takeWhile (fun x => !(isPySpace x))) ::
        pySplitF fuel (cs.dropWhile (fun x => !(isPySpace x)))

/-- Whitespace tokenization. -/
def pySplit (l : List Char) : List (List Char) :=
  pySplitF (l.length + 1) l

/-- Modelled from the spec: the nltk `ToktokTokenizer` is an external library
resource that is not part of this repository.  On the strings this pipeline
feeds it (letters and whitespace after special-character removal, and more
generally once its punctuation rules do not fire) it reduces to whitespace
splitting, which is how the spec describes stage 11 ("tokenize, strip
per-token whitespace, ..."). -/
def toktokTokenize (l : List Char) : List (List Char) := pySplit l

/-- Modelled from the spec: the nltk English stopword corpus is loaded from
external data (`nltk.corpus.stopwords.words("english")`), not stored in this
repository.  This is the standard list. -/
def nltkStopwords : List (List Char) :=
  ["i", "me", "my", "myself", "we", "our", "ours", "ourselves", "you",
   "you\x27re", "you\x27ve", "you\x27ll", "you\x27d", "your", "yours",
   "yourself", "yourselves", "he", "him", "his", "himself", "she",
   "she\x27s", "her", "hers", "herself", "it", "it\x27s", "its", "itself",
   "they", "them", "their", "theirs", "themselves", "what", "which", "who",
   "whom", "this", "that", "that\x27ll", "these", "those", "am", "is",
   "are", "was", "were", "be", "been", "being", "have", "has", "had",
   "having", "do", "does", "did", "doing", "a", "an", "the", "and", "but",
   "if", "or", "because", "as", "until", "while", "of", "at", "by", "for",
   "with", "about", "against", "between", "into", "through", "during",
   "before", "after", "above", "below", "to", "from", "up", "down", "in",
   "out", "on", "off", "over", "under", "again", "further", "then", "once",
   "here", "there", "when", "where", "why", "how", "all", "any", "both",
   "each", "few", "more", "most", "other", "some", "such", "no", "nor",
   "not", "only", "own", "same", "so", "than", "too", "very", "s", "t",
   "can", "will", "just", "don", "don\x27t", "should", "should\x27ve",
   "now", "d", "ll", "m", "o", "re", "ve", "y", "ain", "aren",
   "aren\x27t", "couldn", "couldn\x27t", "didn", "didn\x27t", "doesn",
   "doesn\x27t", "hadn", "hadn\x27t", "hasn", "hasn\x27t", "haven",
   "haven\x27t", "isn", "isn\x27t", "ma", "mightn", "mightn\x27t",
   "mustn", "mustn\x27t", "needn", "needn\x27t", "shan", "shan\x27t",
   "shouldn", "shouldn\x27t", "wasn", "wasn\x27t", "weren", "weren\x27t",
   "won", "won\x27t", "wouldn", "wouldn\x27t"].map String.toList

/-- Modelled from the spec: the spacy `en_core_web_sm` model backing
`lemmatize_text` is an external resource.  Stage 8 of the spec says "replace
each token with its dictionary base form (pronouns preserved as-is)"; the
dictionary covers the plural nouns exercised here and falls back to the
identity (which also realizes the pronoun-preserving branch of the source). -/
def lemmaDict : List (List Char × List Char) :=
  [("cats".toList, "cat".toList), ("dogs".toList, "dog".toList),
   ("words".toList, "word".toList)]

/-- Modelled from the spec: dictionary lemmatization of one token. -/
def lemmaTok (w : List Char) : List Char := (alist lemmaDict w).getD w

/-- Modelled from the spec: `lemmatize_text` tokenizes with the external model
and rejoins the per-token base forms with single spaces. -/
def lemmaModel (t : List Char) : List Char :=
  joinSpace ((pySplit t).map lemmaTok)

/-- The concrete resource record used for concrete evaluations. -/
def concreteRes : NlpResources :=
  { tokenize := toktokTokenize, stopword_list := nltkStopwords,
    lemmatize := lemmaModel }

/-- The truncation applied right after cleaning:
`df["sentence"] = df["sentence"].str[:63]` keeps the first 63 characters. -/
def truncate_sentence (s : List Char) : List Char := s.take 63

/-- The complete per-document treatment of the data-preparation cells: clean
with the observed toggles, then truncate. -/
def clean_and_truncate (R : NlpResources) (doc : List Char) : List Char :=
  truncate_sentence (text_preprocessing_doc R observedConfig doc)

/-- Lexicographic comparison of character lists by code point (the order
numpy uses for string arrays, hence the order of `LabelEncoder.classes_`). -/
def ltCl : List Char → List Char → Bool
  | [], [] => false
  | [], _ :: _ => true
  | _ :: _, [] => false
  | a :: as, b :: bs =>
    if a.toNat < b.toNat then true
    else if b.toNat < a.toNat then false
    else ltCl as bs

/-- Insert into a sorted duplicate-free list, keeping it sorted and
duplicate-free. -/
def insSorted (x : List Char) : List (List Char) → List (List Char)
  | [] => [x]
  | y :: ys =>
    if ltCl x y then x :: y :: ys
    else if x = y then y :: ys
    else y :: insSorted x ys

/-- `LabelEncoder.fit`: the classes are the sorted distinct labels. -/
def uniqueSorted (labels : List (List Char)) : List (List Char) :=
  labels.foldr insSorted []

/-- Index of the first occurrence of `x` in a class list. -/
def encIdx (x : List Char) : List (List Char) → Nat
  | [] => 0
  | y :: ys => if y = x then 0 else encIdx x ys + 1

/-- `LabelEncoder.transform` on one label: its index in the sorted class
list. -/
def label_encode (labels : List (List Char)) (x : List Char) : Nat :=
  encIdx x (uniqueSorted labels)

/-- The persisted `category_map.csv` rows: for the data frame with columns
`(label_enc, label)`, duplicates dropped keeping the first and sorted by
`label_enc`, this is exactly the list of `(index, class)` pairs. -/
def category_map_aux (i : Nat) : List (List Char) → List (Nat × List Char)
  | [] => []
  | u :: us => (i, u) :: category_map_aux (i + 1) us

/-- The persisted label-index mapping. -/
def category_map (labels : List (List Char)) : List (Nat × List Char) :=
  category_map_aux 0 (uniqueSorted labels)

/-- Index lookup in the persisted mapping (inference-time decoding). -/
def lookupIdx : List (Nat × List Char) → Nat → Option (List Char)
  | [], _ => none
  | (k, v) :: r, i => if i = k then some v else lookupIdx r i

/-- Decoding an encoded label through the persisted mapping file. -/
def label_decode (labels : List (List Char)) (i : Nat) : Option (List Char) :=
  lookupIdx (category_map labels) i

/-- The cell `df.replace("", nan_value, inplace=True)`: empty strings in
either retained column become missing values. -/
def replace_empty (rows : List (List Char × List Char)) :
    List (Option (List Char) × Option (List Char)) :=
  rows.map (fun r =>
    (if r.1.isEmpty then none else some r.1,
     if r.2.isEmpty then none else some r.2))

/-- The cell `df.dropna(subset=["sentence"], inplace=True)`: drop the rows
whose sentence is missing. -/
def dropna_sentence (rows : List (Option (List Char) × Option (List Char))) :
    List (Option (List Char) × Option (List Char)) :=
  rows.filter (fun r => !r.1.isNone)

/-- The two filtering cells combined. -/
def drop_empty (rows : List (List Char × List Char)) :
    List (Option (List Char) × Option (List Char)) :=
  dropna_sentence (replace_empty rows)

/-- Modelled from the spec: `sklearn.model_selection.train_test_split` is an
external library call; the spec describes it as a non-deterministic (random)
split of the rows into a training partition and a held-out partition.  The
randomness is modelled as an arbitrary permutation `shuffled` of the rows and
a split index `k`; the result is the pair (first k shuffled rows, remaining
shuffled rows). -/
def train_test_split (shuffled : List (List Char × List Char)) (k : Nat) :
    List (List Char × List Char) × List (List Char × List Char) :=
  (shuffled.take k, shuffled.drop k)

/-! Basic lemmas about the helper functions. -/

theorem nth_mem {α : Type} : ∀ {l : List α} {i : Nat} {c : α},
    nth l i = some c → c ∈ l := by
  intro l
  induction l with
  | nil => intro i c h; simp [nth] at h
  | cons a as ih =>
    intro i c h
    cases i with
    | zero => simp [nth] at h; simp [h]
    | succ n => exact List.mem_cons_of_mem a (ih h)

theorem alist_some_mem {ν : Type} : ∀ {t : List (Char × ν)} {x : Char} {v : ν},
    alist t x = some v → (x, v) ∈ t := by
  intro t
  induction t with
  | nil => intro x v h; simp [alist] at h
  | cons kv r ih =>
    intro x v h
    obtain ⟨k, w⟩ := kv
    by_cases hk : (k == x) = true
    · rw [alist, if_pos hk] at h
      cases h
      cases eq_of_beq hk
      exact List.mem_cons_self _ _
    · rw [alist, if_neg hk] at h
      exact List.mem_cons_of_mem _ (ih h)

theorem idxWhere_nil {p : Char → Bool} {l : List Char}
    (h : ∀ c ∈ l, p c = false) : idxWhere p l = [] := by
  apply List.filter_eq_nil_iff.mpr
  intro i _
  cases hn : nth l i with
  | none => simp
  | some c => simp [hn, h c (nth_mem hn)]

theorem isPre_subset : ∀ {s l : List Char}, isPre s l = true → ∀ c ∈ s, c ∈ l := by
  intro s
  induction s with
  | nil => intro l _ c hc; simp at hc
  | cons a as ih =>
    intro l h c hc
    cases l with
    | nil => simp [isPre] at h
    | cons b bs =>
      rw [isPre, Bool.and_eq_true] at h
      cases eq_of_beq h.1
      rcases List.mem_cons.mp hc with rfl | hc
      · exact List.mem_cons_self _ _
      · exact List.mem_cons_of_mem _ (ih h.2 c hc)

theorem map_id_of {α : Type} {f : α → α} : ∀ {l : List α},
    (∀ c ∈ l, f c = c) → l.map f = l := by
  intro l
  induction l with
  | nil => intro _; rfl
  | cons a as ih =>
    intro h
    simp only [List.map_cons, h a (List.mem_cons_self a as),
      ih (fun c hc => h c (List.mem_cons_of_mem a hc))]

theorem flatMap_singleton_of {α : Type} {f : α → List α} : ∀ {l : List α},
    (∀ c ∈ l, f c = [c]) → l.flatMap f = l := by
  intro l
  induction l with
  | nil => intro _; rfl
  | cons a as ih =>
    intro h
    simp only [List.flatMap_cons, h a (List.mem_cons_self a as),
      ih (fun c hc => h c (List.mem_cons_of_mem a hc))]
    rfl

/-! Character-level facts. -/

theorem caseTable_vals_fixed :
    caseTable.all (fun e => (alist caseTable e.2).isNone) = true := by decide

theorem caseTable_keys_moved :
    caseTable.all (fun e => !(e.1 == e.2)) = true := by decide

theorem pyLower_of_none {c : Char} (h : alist caseTable c = none) :
    pyLower c = c := by
  simp [pyLower, h]

theorem alist_caseTable_none_of_fixed {c : Char} (h : pyLower c = c) :
    alist caseTable c = none := by
  cases ha : alist caseTable c with
  | none => rfl
  | some v =>
    exfalso
    have hv : pyLower c = v := by simp [pyLower, ha]
    rw [h] at hv
    subst hv
    have := List.all_eq_true.mp caseTable_keys_moved _ (alist_some_mem ha)
    simp at this

theorem pyLower_idem (c : Char) : pyLower (pyLower c) = pyLower c := by
  cases ha : alist caseTable c with
  | none => rw [pyLower_of_none ha, pyLower_of_none ha]
  | some v =>
    have hv : pyLower c = v := by simp [pyLower, ha]
    rw [hv]
    have := List.all_eq_true.mp caseTable_vals_fixed _ (alist_some_mem ha)
    simp only [Option.isNone_iff_eq_none] at this
    exact pyLower_of_none this

theorem nfkd_ascii {c : Char} (h : c.toNat < 128) : nfkdChar c = [c] := by
  simp [nfkdChar, h]

theorem accTable_targets_ascii :
    accTable.all (fun e => e.2.all (fun d => d.toNat < 128)) = true := by decide

theorem accTable_lower_fixed :
    accTable.all (fun e =>
      !((alist caseTable e.1).isNone) ||
        e.2.all (fun d => (alist caseTable d).isNone)) = true := by decide

theorem nfkd_targets_ascii {c d : Char} (h : d ∈ nfkdChar c) : d.toNat < 128 := by
  by_cases hc : c.toNat < 128
  · rw [nfkd_ascii hc] at h
    simp at h
    exact h ▸ hc
  · rw [nfkdChar, if_neg hc] at h
    cases ha : alist accTable c with
    | none => rw [ha] at h; simp at h
    | some s =>
      rw [ha] at h
      have := List.all_eq_true.mp accTable_targets_ascii _ (alist_some_mem ha)
      have := List.all_eq_true.mp this _ h
      simpa using this

theorem nfkd_lower_fixed {c d : Char} (hc : pyLower c = c) (h : d ∈ nfkdChar c) :
    pyLower d = d := by
  by_cases hasc : c.toNat < 128
  · rw [nfkd_ascii hasc] at h
    simp at h
    exact h ▸ hc
  · rw [nfkdChar, if_neg hasc] at h
    cases ha : alist accTable c with
    | none => rw [ha] at h; simp at h
    | some s =>
      rw [ha] at h
      have hall := List.all_eq_true.mp accTable_lower_fixed _ (alist_some_mem ha)
      rw [Bool.or_eq_true] at hall
      rcases hall with hbad | hgood
      · rw [alist_caseTable_none_of_fixed hc] at hbad
        simp at hbad
      · have := List.all_eq_true.mp hgood _ h
        simp only [Option.isNone_iff_eq_none] at this
        exact pyLower_of_none this

/-- No two adjacent literal space characters. -/
def noSpRun : List Char → Bool
  | [] => true
  | [_] => true
  | a :: b :: t => !(a == ' ' && b == ' ') && noSpRun (b :: t)

theorem noSpRun_tail {a : Char} {l : List Char} (h : noSpRun (a :: l) = true) :
    noSpRun l = true := by
  cases l with
  | nil => rfl
  | cons b t =>
    rw [noSpRun, Bool.and_eq_true] at h
    exact h.2

/-! Lemmas about the substitution scanners. -/

theorem subAllF_chars {m : Option Char → List Char → Option Nat}
    {rep : List Char} :
    ∀ {fuel : Nat} {prev : Option Char} {l : List Char} {c : Char},
      c ∈ subAllF m rep fuel prev l → c ∈ rep ∨ c ∈ l := by
  intro fuel
  induction fuel with
  | zero => intro prev l c h; exact Or.inr h
  | succ f ih =>
    intro prev l c h
    cases l with
    | nil => simp [subAllF] at h
    | cons a cs =>
      rw [subAllF] at h
      cases hm : m prev (a :: cs) with
      | none =>
        rw [hm] at h
        rcases List.mem_cons.mp h with rfl | h
        · exact Or.inr (List.mem_cons_self _ _)
        · rcases ih h with hr | hl
          · exact Or.inl hr
          · exact Or.inr (List.mem_cons_of_mem _ hl)
      | some n =>
        rw [hm] at h
        rcases List.mem_append.mp h with hr | h
        · exact Or.inl hr
        · rcases ih h with hr | hl
          · exact Or.inl hr
          · exact Or.inr (List.mem_of_mem_drop hl)

theorem subAllF_id {m : Option Char → List Char → Option Nat}
    {rep : List Char} {l0 : List Char}
    (hm : ∀ (p : Option Char) (c : Char) (cs : List Char),
      (c :: cs) <:+ l0 → m p (c :: cs) = none) :
    ∀ {fuel : Nat} {prev : Option Char} {l : List Char},
      l <:+ l0 → l.length ≤ fuel → subAllF m rep fuel prev l = l := by
  intro fuel
  induction fuel with
  | zero =>
    intro prev l _ hlen
    cases l with
    | nil => rfl
    | cons a cs => simp at hlen
  | succ f ih =>
    intro prev l hsuf hlen
    cases l with
    | nil => rfl
    | cons a cs =>
      rw [subAllF, hm prev a cs hsuf]
      have hcs : cs <:+ l0 := (List.suffix_cons a cs).trans hsuf
      have : cs.length ≤ f := by
        simp only [List.length_cons] at hlen; omega
      rw [ih hcs this]

theorem dropWhile_head_false {p : Char → Bool} : ∀ {l : List Char} {c : Char}
    {cs : List Char}, l.dropWhile p = c :: cs → p c = false := by
  intro l
  induction l with
  | nil => intro c cs h; simp at h
  | cons a as ih =>
    intro c cs h
    by_cases hp : p a = true
    · rw [List.dropWhile_cons_of_pos hp] at h
      exact ih h
    · rw [List.dropWhile_cons_of_neg hp] at h
      cases h
      exact Bool.eq_false_iff.mpr hp

theorem collapseRunsF_chars {p : Char → Bool} {r : Char} :
    ∀ {fuel : Nat} {l : List Char} {c : Char}, l.length ≤ fuel →
      c ∈ collapseRunsF p r fuel l → c = r ∨ (c ∈ l ∧ p c = false) := by
  intro fuel
  induction fuel with
  | zero =>
    intro l c hlen h
    cases l with
    | nil => simp [collapseRunsF] at h
    | cons a cs => simp at hlen
  | succ f ih =>
    intro l c hlen h
    cases l with
    | nil => simp [collapseRunsF] at h
    | cons a cs =>
      rw [collapseRunsF] at h
      by_cases hp : p a = true
      · rw [if_pos hp] at h
        rcases List.mem_cons.mp h with rfl | h
        · exact Or.inl rfl
        · have hlen2 : (cs.dropWhile p).length ≤ f := by
            have := (List.dropWhile_sublist (l := cs) p).length_le
            simp only [List.length_cons] at hlen; omega
          rcases ih hlen2 h with hr | ⟨hmem, hpc⟩
          · exact Or.inl hr
          · exact Or.inr ⟨List.mem_cons_of_mem _
              ((List.dropWhile_sublist p).subset hmem), hpc⟩
      · rw [if_neg hp] at h
        rcases List.mem_cons.mp h with rfl | h
        · exact Or.inr ⟨List.mem_cons_self _ _, Bool.eq_false_iff.mpr hp⟩
        · have hlen2 : cs.length ≤ f := by
            simp only [List.length_cons] at hlen; omega
          rcases ih hlen2 h with hr | ⟨hmem, hpc⟩
          · exact Or.inl hr
          · exact Or.inr ⟨List.mem_cons_of_mem _ hmem, hpc⟩

theorem collapseRunsF_id_of_none {p : Char → Bool} {r : Char} :
    ∀ {fuel : Nat} {l : List Char}, l.length ≤ fuel →
      (∀ c ∈ l, p c = false) → collapseRunsF p r fuel l = l := by
  intro fuel
  induction fuel with
  | zero =>
    intro l hlen _
    cases l with
    | nil => rfl
    | cons a cs => simp at hlen
  | succ f ih =>
    intro l hlen hnone
    cases l with
    | nil => rfl
    | cons a cs =>
      rw [collapseRunsF, if_neg (by simp [hnone a (List.mem_cons_self a cs)])]
      rw [ih (by simp only [List.length_cons] at hlen; omega)
        (fun c hc => hnone c (List.mem_cons_of_mem a hc))]

theorem collapseRunsF_sp_noSpRun :
    ∀ {fuel : Nat} {l : List Char}, l.length ≤ fuel →
      noSpRun (collapseRunsF (fun c => c == ' ') ' ' fuel l) = true := by
  intro fuel
  induction fuel with
  | zero =>
    intro l hlen
    cases l with
    | nil => rfl
    | cons a cs => simp at hlen
  | succ f ih =>
    intro l hlen
    cases l with
    | nil => rfl
    | cons a cs =>
      rw [collapseRunsF]
      by_cases hp : (a == ' ') = true
      · rw [if_pos hp]
        have hlen2 : (cs.dropWhile (fun c => c == ' ')).length ≤ f := by
          have := (List.dropWhile_sublist (l := cs) (fun c => c == ' ')).length_le
          simp only [List.length_cons] at hlen; omega
        have hrec := ih hlen2
        cases hw : collapseRunsF (fun c => c == ' ') ' ' f
            (cs.dropWhile (fun c => c == ' ')) with
        | nil => rfl
        | cons b t =>
          rw [hw] at hrec
          rw [noSpRun, Bool.and_eq_true]
          refine ⟨?_, hrec⟩
          have hb : (b == ' ') = false := by
            cases f with
            | zero =>
              have : cs.dropWhile (fun c => c == ' ') = [] := by
                have := (List.dropWhile_sublist (l := cs) (fun c => c == ' ')).length_le
                cases hdw : cs.dropWhile (fun c => c == ' ') with
                | nil => rfl
                | cons x xs =>
                  rw [hdw] at hlen2; simp at hlen2
              rw [this] at hw
              simp [collapseRunsF] at hw
            | succ f2 =>
              cases hdw : cs.dropWhile (fun c => c == ' ') with
              | nil => rw [hdw] at hw; simp [collapseRunsF] at hw
              | cons x xs =>
                have hx : (x == ' ') = false :=
                  @dropWhile_head_false (fun c => c == ' ') cs x xs hdw
                rw [hdw, collapseRunsF, if_neg (by simp [hx])] at hw
                cases hw
                exact hx
          simp [hb]
      · rw [if_neg hp]
        have hlen2 : cs.length ≤ f := by
          simp only [List.length_cons] at hlen; omega
        have hrec := ih (l := cs) hlen2
        cases hw : collapseRunsF (fun c => c == ' ') ' ' f cs with
        | nil => rfl
        | cons b t =>
          rw [hw] at hrec
          rw [noSpRun, Bool.and_eq_true]
          exact ⟨by simp [hp], hrec⟩

theorem collapseRunsF_sp_id :
    ∀ {fuel : Nat} {l : List Char}, l.length ≤ fuel → noSpRun l = true →
      collapseRunsF (fun c => c == ' ') ' ' fuel l = l := by
  intro fuel
  induction fuel with
  | zero =>
    intro l hlen _
    cases l with
    | nil => rfl
    | cons a cs => simp at hlen
  | succ f ih =>
    intro l hlen hns
    cases l with
    | nil => rfl
    | cons a cs =>
      have hlen2 : cs.length ≤ f := by
        simp only [List.length_cons] at hlen; omega
      rw [collapseRunsF]
      by_cases hp : (a == ' ') = true
      · rw [if_pos hp]
        have hdw : cs.dropWhile (fun c => c == ' ') = cs := by
          cases cs with
          | nil => rfl
          | cons b t =>
            rw [noSpRun, Bool.and_eq_true] at hns
            have hb : (b == ' ') = false := by
              rcases Bool.eq_false_or_eq_true (b == ' ') with h | h
              · rw [hp, h] at hns; simp at hns
              · exact h
            exact List.dropWhile_cons_of_neg (by simp [hb])
        rw [hdw, ih hlen2 (noSpRun_tail hns)]
        cases eq_of_beq hp
        rfl
      · rw [if_neg hp, ih hlen2 (noSpRun_tail hns)]

/-! No-match lemmas for the three matchers. -/

theorem matchEmail_none {prev : Option Char} {l : List Char}
    (h : ∀ c ∈ l, (c == '@') = false) : matchEmail prev l = none := by
  unfold matchEmail
  have hrun : ∀ c ∈ l.takeWhile (fun c => !(isPySpace c)), (c == '@') = false :=
    fun c hc => h c ((List.takeWhile_sublist _).subset hc)
  simp only [idxWhere_nil hrun, List.filter_nil, List.getLast?_nil, ite_self]

theorem matchHyper_none {prev : Option Char} {l : List Char}
    (h : ∀ c ∈ l, (c == ':') = false) : matchHyper prev l = none := by
  have hcolon : (':' ∈ l) → False := by
    intro hc
    have := h ':' hc
    simp at this
  have h1 : isPre ('h' :: 't' :: 't' :: 'p' :: ':' :: '/' :: '/' :: []) l = false := by
    rcases Bool.eq_false_or_eq_true
        (isPre ('h' :: 't' :: 't' :: 'p' :: ':' :: '/' :: '/' :: []) l) with ht | ht
    · exact absurd (isPre_subset ht ':' (by simp)) hcolon
    · exact ht
  have h2 : isPre ('h' :: 't' :: 't' :: 'p' :: 's' :: ':' :: '/' :: '/' :: []) l
      = false := by
    rcases Bool.eq_false_or_eq_true
        (isPre ('h' :: 't' :: 't' :: 'p' :: 's' :: ':' :: '/' :: '/' :: []) l) with ht | ht
    · exact absurd (isPre_subset ht ':' (by simp)) hcolon
    · exact ht
  rw [matchHyper, if_neg (by simp [h1]), if_neg (by simp [h2])]

theorem matchDigits_none {prev : Option Char} {l : List Char}
    (h : ∀ c ∈ l, isDigitB c = false) : matchDigits prev l = none := by
  cases l with
  | nil => rfl
  | cons c cs =>
    cases cs with
    | nil => rfl
    | cons d rest =>
      have hd : isDigitB d = false :=
        h d (List.mem_cons_of_mem c (List.mem_cons_self d rest))
      rw [matchDigits, if_neg (by simp [hd])]

/-! Identity lemmas: each stage leaves a string with no pattern occurrence
unchanged. -/

theorem remove_emails_id {l : List Char} (h : ∀ c ∈ l, (c == '@') = false) :
    remove_emails l = l :=
  subAllF_id
    (fun p c cs hsuf =>
      matchEmail_none (fun x hx => h x (hsuf.sublist.subset hx)))
    (List.suffix_refl l) (Nat.le_refl _)

theorem remove_hyperlink_id {l : List Char} (h : ∀ c ∈ l, (c == ':') = false) :
    remove_hyperlink l = l :=
  subAllF_id
    (fun p c cs hsuf =>
      matchHyper_none (fun x hx => h x (hsuf.sublist.subset hx)))
    (List.suffix_refl l) (Nat.le_refl _)

theorem remove_digits_id {l : List Char} (h : ∀ c ∈ l, isDigitB c = false) :
    remove_digits l = l :=
  subAllF_id
    (fun p c cs hsuf =>
      matchDigits_none (fun x hx => h x (hsuf.sublist.subset hx)))
    (List.suffix_refl l) (Nat.le_refl _)

theorem remove_special_characters_id {l : List Char}
    (h : ∀ c ∈ l, alphaOrSpace c = true) : remove_special_characters l = l :=
  map_id_of (fun c hc => if_pos (h c hc))

theorem remove_accented_chars_id {l : List Char}
    (h : ∀ c ∈ l, c.toNat < 128) : remove_accented_chars l = l :=
  flatMap_singleton_of (fun c hc => nfkd_ascii (h c hc))

theorem special_spacing_id {l : List Char}
    (h : ∀ c ∈ l, isSpacingSpecial c = false) : special_spacing l = l :=
  flatMap_singleton_of (fun c hc => by rw [if_neg (by simp [h c hc])])

theorem collapse_newlines_id {l : List Char}
    (h : ∀ c ∈ l, isNewlineClass c = false) : collapse_newlines l = l :=
  collapseRunsF_id_of_none (Nat.le_refl _) h

theorem collapse_spaces_id {l : List Char} (h : noSpRun l = true) :
    collapse_spaces l = l :=
  collapseRunsF_sp_id (Nat.le_refl _) h

theorem map_pyLower_id {l : List Char} (h : ∀ c ∈ l, pyLower c = c) :
    l.map pyLower = l :=
  map_id_of h

/-! Character-class disjointness facts. -/

theorem alphaOrSpace_not_at {c : Char} (h : alphaOrSpace c = true) :
    (c == '@') = false := by
  cases hb : c == '@' with
  | false => rfl
  | true =>
    cases eq_of_beq hb
    exact absurd h (by decide)

theorem alphaOrSpace_not_colon {c : Char} (h : alphaOrSpace c = true) :
    (c == ':') = false := by
  cases hb : c == ':' with
  | false => rfl
  | true =>
    cases eq_of_beq hb
    exact absurd h (by decide)

theorem alphaOrSpace_no_digit {c : Char} (h : alphaOrSpace c = true) :
    isDigitB c = false := by
  apply Bool.eq_false_iff.mpr
  intro hd
  simp only [alphaOrSpace, isAsciiAlpha, isPySpace, Bool.or_eq_true,
    Bool.and_eq_true, decide_eq_true_eq] at h
  simp only [isDigitB, Bool.and_eq_true, decide_eq_true_eq] at hd
  omega

theorem alphaOrSpace_no_special {c : Char} (h : alphaOrSpace c = true) :
    isSpacingSpecial c = false := by
  apply Bool.eq_false_iff.mpr
  intro hd
  simp only [alphaOrSpace, isAsciiAlpha, isPySpace, Bool.or_eq_true,
    Bool.and_eq_true, decide_eq_true_eq] at h
  simp only [isSpacingSpecial, Bool.or_eq_true, decide_eq_true_eq] at hd
  omega

theorem alphaOrSpace_no_newline {c : Char} (h : alphaOrSpace c = true)
    (h13 : c.toNat ≠ 13) (h10 : c.toNat ≠ 10) : isNewlineClass c = false := by
  apply Bool.eq_false_iff.mpr
  intro hd
  simp only [alphaOrSpace, isAsciiAlpha, isPySpace, Bool.or_eq_true,
    Bool.and_eq_true, decide_eq_true_eq] at h
  simp only [isNewlineClass, Bool.or_eq_true, decide_eq_true_eq] at hd
  omega

theorem isNewlineClass_false_no_cr {c : Char} (h : isNewlineClass c = false) :
    c.toNat ≠ 13 ∧ c.toNat ≠ 10 := by
  simp only [isNewlineClass, Bool.or_eq_true, decide_eq_true_eq] at h
  constructor <;> intro hc <;> rw [hc] at h <;> simp at h

/-! Character-subset lemmas: each stage only ever introduces the space
character. -/

theorem remove_emails_chars {t : List Char} :
    ∀ c ∈ remove_emails t, c = ' ' ∨ c ∈ t := by
  intro c hc
  rcases subAllF_chars hc with hr | hl
  · simp at hr; exact Or.inl hr
  · exact Or.inr hl

theorem remove_hyperlink_chars {t : List Char} :
    ∀ c ∈ remove_hyperlink t, c = ' ' ∨ c ∈ t := by
  intro c hc
  rcases subAllF_chars hc with hr | hl
  · simp at hr; exact Or.inl hr
  · exact Or.inr hl

theorem remove_digits_chars {t : List Char} :
    ∀ c ∈ remove_digits t, c = ' ' ∨ c ∈ t := by
  intro c hc
  rcases subAllF_chars hc with hr | hl
  · simp at hr; exact Or.inl hr
  · exact Or.inr hl

theorem collapse_newlines_chars {t : List Char} :
    ∀ c ∈ collapse_newlines t, c = ' ' ∨ c ∈ t := by
  intro c hc
  rcases collapseRunsF_chars (Nat.le_refl _) hc with hr | ⟨hm, _⟩
  · exact Or.inl hr
  · exact Or.inr hm

theorem collapse_newlines_no_cr {t : List Char} :
    ∀ c ∈ collapse_newlines t, c.toNat ≠ 13 ∧ c.toNat ≠ 10 := by
  intro c hc
  rcases collapseRunsF_chars (Nat.le_refl _) hc with hr | ⟨_, hp⟩
  · subst hr; exact ⟨by decide, by decide⟩
  · exact isNewlineClass_false_no_cr hp

theorem collapse_spaces_chars {t : List Char} :
    ∀ c ∈ collapse_spaces t, c = ' ' ∨ c ∈ t := by
  intro c hc
  rcases collapseRunsF_chars (Nat.le_refl _) hc with hr | ⟨hm, _⟩
  · exact Or.inl hr
  · exact Or.inr hm

theorem special_spacing_chars {t : List Char} :
    ∀ c ∈ special_spacing t, c = ' ' ∨ c ∈ t := by
  intro c hc
  rcases List.mem_flatMap.mp hc with ⟨x, hx, hcx⟩
  by_cases hs : isSpacingSpecial x = true
  · rw [if_pos hs] at hcx
    rcases List.mem_cons.mp hcx with rfl | hcx
    · exact Or.inl rfl
    · rcases List.mem_cons.mp hcx with rfl | hcx
      · exact Or.inr hx
      · simp at hcx; exact Or.inl hcx
  · rw [if_neg hs] at hcx
    simp at hcx
    exact Or.inr (hcx ▸ hx)

theorem remove_special_characters_chars {t : List Char} :
    ∀ c ∈ remove_special_characters t,
      alphaOrSpace c = true ∧ (c = ' ' ∨ c ∈ t) := by
  intro c hc
  rcases List.mem_map.mp hc with ⟨x, hx, hcx⟩
  by_cases ha : alphaOrSpace x = true
  · rw [if_pos ha] at hcx
    exact ⟨hcx ▸ ha, Or.inr (hcx ▸ hx)⟩
  · rw [if_neg ha] at hcx
    exact ⟨hcx ▸ (by decide), Or.inl hcx.symm⟩

theorem remove_accented_chars_ascii {t : List Char} :
    ∀ c ∈ remove_accented_chars t, c.toNat < 128 := by
  intro c hc
  rcases List.mem_flatMap.mp hc with ⟨x, _, hcx⟩
  exact nfkd_targets_ascii hcx

theorem remove_accented_chars_lower {t : List Char}
    (h : ∀ c ∈ t, pyLower c = c) :
    ∀ c ∈ remove_accented_chars t, pyLower c = c := by
  intro c hc
  rcases List.mem_flatMap.mp hc with ⟨x, hx, hcx⟩
  exact nfkd_lower_fixed (h x hx) hcx

/-- Conditionally applied stage (the shape `if toggle then stage doc else
doc` of each toggle in `text_preprocessing`). -/
def opt (b : Bool) (f : List Char → List Char) (x : List Char) : List Char :=
  if b then f x else x

theorem chars_pres {Q : Char → Prop} {t s : List Char}
    (hsub : ∀ c ∈ s, c = ' ' ∨ c ∈ t) (hsp : Q ' ') (h : ∀ c ∈ t, Q c) :
    ∀ c ∈ s, Q c := by
  intro c hc
  rcases hsub c hc with rfl | hm
  · exact hsp
  · exact h c hm

theorem opt_pres {Q : List Char → Prop} {b : Bool}
    {f : List Char → List Char} {x : List Char}
    (hf : Q x → Q (f x)) (hx : Q x) : Q (opt b f x) := by
  cases b with
  | false => exact hx
  | true => exact hf hx

/-- The invariant satisfied by every output of the pipeline when
special-character removal is enabled and lemmatization and stopword removal
are disabled: only letters and whitespace, no carriage returns or line feeds,
no space runs; all characters case-fixed when lower-casing is on, all ASCII
when accent removal is on. -/
def GoodOut (lo a : Bool) (y : List Char) : Prop :=
  (∀ c ∈ y, alphaOrSpace c = true) ∧
  (∀ c ∈ y, c.toNat ≠ 13 ∧ c.toNat ≠ 10) ∧
  noSpRun y = true ∧
  (lo = true → ∀ c ∈ y, pyLower c = c) ∧
  (a = true → ∀ c ∈ y, c.toNat < 128)

/-- The pipeline with special-character removal on and lemmatization and
stopword removal off, factored as the tail after the optional lower-casing. -/
def tailAfterLower (e d h a : Bool) (x : List Char) : List Char :=
  collapse_spaces (remove_special_characters (special_spacing
    (collapse_newlines (opt d remove_digits (opt a remove_accented_chars
      (opt h remove_hyperlink (opt e remove_emails x)))))))

theorem tpd_as_tail (R : NlpResources) (e d h a lo : Bool) (doc : List Char) :
    text_preprocessing_doc R ⟨e, d, h, true, a, lo, false, false⟩ doc =
      tailAfterLower e d h a (opt lo (List.map pyLower) doc) := rfl

theorem final4_alpha {t : List Char} :
    ∀ c ∈ collapse_spaces (remove_special_characters (special_spacing
      (collapse_newlines t))), alphaOrSpace c = true := by
  apply @chars_pres (fun c => alphaOrSpace c = true) _ _
    collapse_spaces_chars (by decide)
  exact fun c hc => (remove_special_characters_chars c hc).1

theorem final4_no_cr {t : List Char} :
    ∀ c ∈ collapse_spaces (remove_special_characters (special_spacing
      (collapse_newlines t))), c.toNat ≠ 13 ∧ c.toNat ≠ 10 := by
  apply @chars_pres (fun c => c.toNat ≠ 13 ∧ c.toNat ≠ 10) _ _
    collapse_spaces_chars (by decide)
  apply @chars_pres (fun c => c.toNat ≠ 13 ∧ c.toNat ≠ 10) _ _
    (fun c hc => (remove_special_characters_chars c hc).2) (by decide)
  apply @chars_pres (fun c => c.toNat ≠ 13 ∧ c.toNat ≠ 10) _ _
    special_spacing_chars (by decide)
  exact collapse_newlines_no_cr

theorem tail_lower_fixed {e d h a : Bool} {x : List Char}
    (hx : ∀ c ∈ x, pyLower c = c) :
    ∀ c ∈ tailAfterLower e d h a x, pyLower c = c := by
  unfold tailAfterLower
  apply @chars_pres (fun c => pyLower c = c) _ _ collapse_spaces_chars (by decide)
  apply @chars_pres (fun c => pyLower c = c) _ _
    (fun c hc => (remove_special_characters_chars c hc).2) (by decide)
  apply @chars_pres (fun c => pyLower c = c) _ _ special_spacing_chars (by decide)
  apply @chars_pres (fun c => pyLower c = c) _ _ collapse_newlines_chars (by decide)
  apply @opt_pres (fun y => ∀ c ∈ y, pyLower c = c) _ _ _
    (@chars_pres (fun c => pyLower c = c) _ _ remove_digits_chars (by decide))
  apply @opt_pres (fun y => ∀ c ∈ y, pyLower c = c) _ _ _
    remove_accented_chars_lower
  apply @opt_pres (fun y => ∀ c ∈ y, pyLower c = c) _ _ _
    (@chars_pres (fun c => pyLower c = c) _ _ remove_hyperlink_chars (by decide))
  apply @opt_pres (fun y => ∀ c ∈ y, pyLower c = c) _ _ _
    (@chars_pres (fun c => pyLower c = c) _ _ remove_emails_chars (by decide))
  exact hx

theorem tail_ascii {e d h : Bool} {x : List Char} :
    ∀ c ∈ tailAfterLower e d h true x, c.toNat < 128 := by
  unfold tailAfterLower
  apply @chars_pres (fun c => c.toNat < 128) _ _ collapse_spaces_chars (by decide)
  apply @chars_pres (fun c => c.toNat < 128) _ _
    (fun c hc => (remove_special_characters_chars c hc).2) (by decide)
  apply @chars_pres (fun c => c.toNat < 128) _ _ special_spacing_chars (by decide)
  apply @chars_pres (fun c => c.toNat < 128) _ _ collapse_newlines_chars (by decide)
  apply @opt_pres (fun y => ∀ c ∈ y, c.toNat < 128) _ _ _
    (@chars_pres (fun c => c.toNat < 128) _ _ remove_digits_chars (by decide))
  exact remove_accented_chars_ascii

theorem pipeline_good (R : NlpResources) (e d h a lo : Bool) (doc : List Char) :
    GoodOut lo a (text_preprocessing_doc R ⟨e, d, h, true, a, lo, false, false⟩ doc) := by
  rw [tpd_as_tail]
  refine ⟨final4_alpha, final4_no_cr, collapseRunsF_sp_noSpRun (Nat.le_refl _),
    ?_, ?_⟩
  · intro hlo
    subst hlo
    apply tail_lower_fixed
    intro c hc
    have hc2 : c ∈ List.map pyLower doc := hc
    rcases List.mem_map.mp hc2 with ⟨x, _, rfl⟩
    exact pyLower_idem x
  · intro ha
    subst ha
    exact tail_ascii

theorem pipeline_id (R : NlpResources) (e d h a lo : Bool) (y : List Char)
    (hG : GoodOut lo a y) :
    text_preprocessing_doc R ⟨e, d, h, true, a, lo, false, false⟩ y = y := by
  obtain ⟨hAS, hCR, hNS, hLF, hAA⟩ := hG
  rw [tpd_as_tail]
  have h0 : opt lo (List.map pyLower) y = y := by
    cases lo with
    | false => rfl
    | true => exact map_pyLower_id (hLF rfl)
  rw [h0]
  unfold tailAfterLower
  have h1 : opt e remove_emails y = y := by
    cases e with
    | false => rfl
    | true => exact remove_emails_id (fun c hc => alphaOrSpace_not_at (hAS c hc))
  rw [h1]
  have h2 : opt h remove_hyperlink y = y := by
    cases h with
    | false => rfl
    | true =>
      exact remove_hyperlink_id (fun c hc => alphaOrSpace_not_colon (hAS c hc))
  rw [h2]
  have h3 : opt a remove_accented_chars y = y := by
    cases a with
    | false => rfl
    | true => exact remove_accented_chars_id (hAA rfl)
  rw [h3]
  have h4 : opt d remove_digits y = y := by
    cases d with
    | false => rfl
    | true => exact remove_digits_id (fun c hc => alphaOrSpace_no_digit (hAS c hc))
  rw [h4]
  rw [collapse_newlines_id (fun c hc =>
    alphaOrSpace_no_newline (hAS c hc) (hCR c hc).1 (hCR c hc).2)]
  rw [special_spacing_id (fun c hc => alphaOrSpace_no_special (hAS c hc))]
  rw [remove_special_characters_id hAS]
  exact collapse_spaces_id hNS

/-- Reference description of the digit stage: scan left to right; at each
whitespace character followed by at least one digit, emit a single space in
place of the whitespace character and the maximal digit run, and resume after
the run; every other character is kept unchanged. -/
def digitSpecF : Nat → List Char → List Char
  | 0, l => l
  | _ + 1, [] => []
  | _ + 1, [c] => [c]
  | fuel + 1, c :: d :: rest =>
    if isPySpace c && isDigitB d then
      ' ' :: digitSpecF fuel (rest.dropWhile isDigitB)
    else c :: digitSpecF fuel (d :: rest)

/-- Reference digit-stage behaviour with sufficient fuel. -/
def digitSpec (l : List Char) : List Char := digitSpecF l.length l

theorem drop_takeWhile_length {p : Char → Bool} :
    ∀ l : List Char, l.drop (l.takeWhile p).length = l.dropWhile p := by
  intro l
  induction l with
  | nil => rfl
  | cons c cs ih =>
    by_cases hp : p c = true
    · rw [List.takeWhile_cons_of_pos hp, List.dropWhile_cons_of_pos hp,
        List.length_cons, List.drop_succ_cons, ih]
    · rw [List.takeWhile_cons_of_neg hp, List.dropWhile_cons_of_neg hp,
        List.length_nil, List.drop_zero]

theorem subAllF_digits_eq :
    ∀ (f1 : Nat) (f2 : Nat) (prev : Option Char) (l : List Char),
      l.length ≤ f1 → l.length ≤ f2 →
      subAllF matchDigits [' '] f1 prev l = digitSpecF f2 l := by
  intro f1
  induction f1 with
  | zero =>
    intro f2 prev l h1 h2
    cases l with
    | nil => cases f2 <;> rfl
    | cons c cs => simp at h1
  | succ f ih =>
    intro f2 prev l h1 h2
    cases l with
    | nil => cases f2 <;> rfl
    | cons c cs =>
      cases cs with
      | nil =>
        have hm : matchDigits prev [c] = none := rfl
        rw [subAllF, hm]
        cases f2 with
        | zero => simp at h2
        | succ g =>
          rw [digitSpecF]
          cases f with
          | zero => rfl
          | succ f3 => rfl
      | cons d rest =>
        cases f2 with
        | zero => simp at h2
        | succ g =>
          by_cases hcond : (isPySpace c && isDigitB d) = true
          · have hm : matchDigits prev (c :: d :: rest) =
                some (2 + (rest.takeWhile isDigitB).length) := by
              rw [matchDigits, if_pos hcond]
            rw [subAllF, hm, digitSpecF, if_pos hcond]
            dsimp only
            have hdrop : (c :: d :: rest).drop
                (max (2 + (rest.takeWhile isDigitB).length) 1) =
                rest.dropWhile isDigitB := by
              rw [Nat.max_eq_left (by omega)]
              show (c :: d :: rest).drop (2 + (rest.takeWhile isDigitB).length) =
                rest.dropWhile isDigitB
              rw [show 2 + (rest.takeWhile isDigitB).length =
                (rest.takeWhile isDigitB).length + 2 from by omega]
              rw [List.drop_succ_cons, List.drop_succ_cons,
                drop_takeWhile_length]
            rw [hdrop]
            have hlen : (rest.dropWhile isDigitB).length ≤ rest.length :=
              (List.dropWhile_sublist isDigitB).length_le
            simp only [List.length_cons] at h1 h2
            rw [ih g _ _ (by omega) (by omega)]
            rfl
          · have hm : matchDigits prev (c :: d :: rest) = none := by
              rw [matchDigits, if_neg hcond]
            rw [subAllF, hm, digitSpecF, if_neg hcond]
            simp only [List.length_cons] at h1 h2
            rw [ih g _ _ (by simp; omega) (by simp; omega)]

/-! Label-encoder lemmas. -/

theorem mem_insSorted_self (x : List Char) :
    ∀ ys : List (List Char), x ∈ insSorted x ys := by
  intro ys
  induction ys with
  | nil => exact List.mem_singleton.mpr rfl
  | cons y ys ih =>
    rw [insSorted]
    by_cases h1 : ltCl x y = true
    · rw [if_pos h1]; exact List.mem_cons_self _ _
    · rw [if_neg h1]
      by_cases h2 : x = y
      · rw [if_pos h2]; exact h2 ▸ List.mem_cons_self _ _
      · rw [if_neg h2]; exact List.mem_cons_of_mem _ ih

theorem mem_insSorted_of {a x : List Char} :
    ∀ {ys : List (List Char)}, a ∈ ys → a ∈ insSorted x ys := by
  intro ys
  induction ys with
  | nil => intro h; simp at h
  | cons y ys ih =>
    intro h
    rw [insSorted]
    by_cases h1 : ltCl x y = true
    · rw [if_pos h1]; exact List.mem_cons_of_mem _ h
    · rw [if_neg h1]
      by_cases h2 : x = y
      · rw [if_pos h2]; exact h
      · rw [if_neg h2]
        rcases List.mem_cons.mp h with rfl | h
        · exact List.mem_cons_self _ _
        · exact List.mem_cons_of_mem _ (ih h)

theorem mem_uniqueSorted {x : List Char} :
    ∀ {labels : List (List Char)}, x ∈ labels → x ∈ uniqueSorted labels := by
  intro labels
  induction labels with
  | nil => intro h; simp at h
  | cons a ls ih =>
    intro h
    show x ∈ insSorted a (uniqueSorted ls)
    rcases List.mem_cons.mp h with rfl | h
    · exact mem_insSorted_self x _
    · exact mem_insSorted_of (ih h)

theorem encIdx_lt {x : List Char} :
    ∀ {us : List (List Char)}, x ∈ us → encIdx x us < us.length := by
  intro us
  induction us with
  | nil => intro h; simp at h
  | cons y ys ih =>
    intro h
    rw [encIdx]
    by_cases h1 : y = x
    · rw [if_pos h1]; simp
    · rw [if_neg h1]
      rcases List.mem_cons.mp h with rfl | h
      · exact absurd rfl h1
      · simpa using Nat.succ_lt_succ (ih h)

theorem nth_encIdx {x : List Char} :
    ∀ {us : List (List Char)}, x ∈ us → nth us (encIdx x us) = some x := by
  intro us
  induction us with
  | nil => intro h; simp at h
  | cons y ys ih =>
    intro h
    rw [encIdx]
    by_cases h1 : y = x
    · rw [if_pos h1]; rw [h1]; rfl
    · rw [if_neg h1]
      rcases List.mem_cons.mp h with rfl | h
      · exact absurd rfl h1
      · show nth ys (encIdx x ys) = some x
        exact ih h

theorem lookupIdx_aux :
    ∀ (us : List (List Char)) (j i : Nat) (v : List Char),
      nth us i = some v → lookupIdx (category_map_aux j us) (j + i) = some v := by
  intro us
  induction us with
  | nil => intro j i v h; simp [nth] at h
  | cons u us ih =>
    intro j i v h
    cases i with
    | zero =>
      rw [nth] at h
      cases h
      rw [category_map_aux, lookupIdx, if_pos (Nat.add_zero j)]
    | succ n =>
      rw [nth] at h
      rw [category_map_aux, lookupIdx,
        if_neg (by omega)]
      have : j + (n + 1) = (j + 1) + n := by omega
      rw [this]
      exact ih (j + 1) n v h

/-- The eleven stages of the pipeline as a fixed list of functions: a disabled
toggle contributes the identity, and the list itself (hence the order) does
not depend on the toggles. -/
def stageList (R : NlpResources) (cfg : NormalizationConfig) :
    List (List Char → List Char) :=
  [if cfg.text_lower_case then List.map pyLower else id,
   if cfg.isRemoveEmail then remove_emails else id,
   if cfg.isRemoveHyperLink then remove_hyperlink else id,
   if cfg.isRemoveAccentChar then remove_accented_chars else id,
   if cfg.isRemoveDigits then remove_digits else id,
   collapse_newlines,
   special_spacing,
   if cfg.text_lemmatization then R.lemmatize else id,
   if cfg.isRemoveSpecialCharac then remove_special_characters else id,
   collapse_spaces,
   if cfg.stopword_removal then
     (fun t => remove_stopwords R.tokenize R.stopword_list t cfg.text_lower_case)
   else id]

theorem ite_app (b : Bool) (f : List Char → List Char) (x : List Char) :
    (if b then f else id) x = if b then f x else x := by
  cases b <;> rfl

theorem stage_fold_eq (R : NlpResources) (cfg : NormalizationConfig)
    (doc : List Char) :
    text_preprocessing_doc R cfg doc =
      (stageList R cfg).foldl (fun d f => f d) doc := by
  simp only [text_preprocessing_doc, stageList, List.foldl_cons,
    List.foldl_nil, ite_app]

/-- Claim C1: for every document and every `NormalizationConfig`,
`text_preprocessing` applies the cleaning stages in the fixed order case fold,
email strip, hyperlink strip, accent normalize, digit strip, newline
collapse, special-character spacing, lemmatize, special-character strip,
whitespace collapse, stopword removal; a stage whose toggle is false is the
identity, and the stage list (hence the order) is the same for every toggle
setting. -/
theorem C1_fixed_stage_order :
    ∀ (R : NlpResources) (cfg : NormalizationConfig)
      (corpus : List (List Char)),
      text_preprocessing R cfg corpus =
        corpus.map (fun doc => (stageList R cfg).foldl (fun d f => f d) doc) := by
  intro R cfg corpus
  unfold text_preprocessing
  exact List.map_congr_left (fun doc _ => stage_fold_eq R cfg doc)

/-- A document whose cleaned form is longer than 64 characters
(the pipeline leaves a run of 70 letters unchanged). -/
def seventyB : List Char := List.replicate 70 'b'

/-- Claim C2, counterexample: the truncation of the data-preparation cell is
`str[:63]`, not truncation to 64 characters: on a document whose cleaned
sentence has 70 characters the stored sentence differs from the 64-character
truncation the claim describes. -/
theorem C2_truncation_cex :
    clean_and_truncate concreteRes seventyB ≠
      (text_preprocessing_doc concreteRes observedConfig seventyB).take 64 := by
  decide

/-- Claim C2, amended: truncation is applied strictly after all cleaning
stages and is character-based, but the configured maximum is 63 characters
(`df["sentence"].str[:63]`), so every stored sentence has length at most 63,
and in particular at most 64. -/
theorem C2_truncation_amended :
    ∀ (R : NlpResources) (doc : List Char),
      clean_and_truncate R doc =
        (text_preprocessing_doc R observedConfig doc).take 63 ∧
      (clean_and_truncate R doc).length ≤ 63 ∧
      (clean_and_truncate R doc).length ≤ 64 := by
  intro R doc
  refine ⟨rfl, List.length_take_le 63 _, ?_⟩
  exact Nat.le_trans (List.length_take_le 63 _) (by omega)

/-- The configuration of the idempotence counterexample: digit removal on,
special-character removal off, stopword removal and lemmatization off. -/
def digitsOnlyConfig : NormalizationConfig :=
  { isRemoveEmail := false, isRemoveDigits := true, isRemoveHyperLink := false,
    isRemoveSpecialCharac := false, isRemoveAccentChar := false,
    text_lower_case := false, text_lemmatization := false,
    stopword_removal := false }

/-- Claim C3, counterexample: with stopword removal and lemmatization
disabled but digit removal on and special-character removal off, the pipeline
is not idempotent on `"a.1"`: the first pass isolates the dot, producing
`"a . 1"`, and only the second pass then removes the now-standalone digit. -/
theorem C3_idempotence_cex :
    digitsOnlyConfig.stopword_removal = false ∧
    digitsOnlyConfig.text_lemmatization = false ∧
    text_preprocessing_doc concreteRes digitsOnlyConfig
        (text_preprocessing_doc concreteRes digitsOnlyConfig ("a.1".toList)) ≠
      text_preprocessing_doc concreteRes digitsOnlyConfig ("a.1".toList) := by
  refine ⟨rfl, rfl, ?_⟩
  decide

/-- Claim C3, amended: for every document and every configuration in which
stopword removal is disabled, lemmatization is disabled and special-character
removal is enabled, the pipeline is idempotent. -/
theorem C3_idempotence_amended :
    ∀ (R : NlpResources) (cfg : NormalizationConfig) (doc : List Char),
      cfg.stopword_removal = false → cfg.text_lemmatization = false →
      cfg.isRemoveSpecialCharac = true →
      text_preprocessing_doc R cfg (text_preprocessing_doc R cfg doc) =
        text_preprocessing_doc R cfg doc := by
  intro R cfg doc hst hle hsp
  obtain ⟨e, d, h, s, a, lo, le, st⟩ := cfg
  cases hst; cases hle; cases hsp
  exact pipeline_id R e d h a lo _ (pipeline_good R e d h a lo doc)

/-- Witness for the amended claim C3 at a concrete document and the observed
toggles with stopword removal disabled. -/
theorem C3_idempotence_amended_witness :
    text_preprocessing_doc concreteRes
        ⟨true, true, true, true, true, true, false, false⟩
        (text_preprocessing_doc concreteRes
          ⟨true, true, true, true, true, true, false, false⟩
          ("Hello.. World 42".toList)) =
      text_preprocessing_doc concreteRes
        ⟨true, true, true, true, true, true, false, false⟩
        ("Hello.. World 42".toList) :=
  C3_idempotence_amended concreteRes _ _ rfl rfl rfl

/-- Boolean substring test: does `pat` occur contiguously in `l`? -/
def containsSeq (pat : List Char) : List Char → Bool
  | [] => isPre pat []
  | c :: cs => isPre pat (c :: cs) || containsSeq pat cs

/-- The example input of the spec's testable property. -/
def c4Input : List Char :=
  "Contact me at a@b.com or visit http://x.com!!! 2 cats".toList

/-- The pipeline output on the example input with every toggle enabled. -/
def c4Output : List Char :=
  match text_preprocessing concreteRes allOnConfig [c4Input] with
  | s :: _ => s
  | [] => []

/-- Claim C4: on the input
`"Contact me at a@b.com or visit http://x.com!!! 2 cats"` with all toggles
enabled, the normalized output contains no at-sign, no `http` substring, no
standalone digit token, and no token whose lower-cased form is in the
stopword list. -/
theorem C4_example_clean :
    ('@' ∉ c4Output) ∧
    containsSeq ("http".toList) c4Output = false ∧
    (pySplit c4Output).all (fun t => !(!t.isEmpty && t.all isDigitB)) = true ∧
    (pySplit c4Output).all
      (fun t => !(nltkStopwords.contains (t.map pyLower))) = true := by
  refine ⟨?_, ?_, ?_, ?_⟩ <;> decide

/-- Claim C5: for every label column, the encoder restricted to the observed
labels is total (the index is below the class count), decoding an encoded
label through the persisted `(label_enc, label)` mapping returns the original
label string, and the encoding is injective on the observed label set, hence
a bijection between the observed labels and their indices. -/
theorem C5_label_roundtrip :
    ∀ (labels : List (List Char)) (x : List Char), x ∈ labels →
      label_encode labels x < (uniqueSorted labels).length ∧
      label_decode labels (label_encode labels x) = some x ∧
      ∀ y ∈ labels, label_encode labels y = label_encode labels x → y = x := by
  intro labels x hx
  have hxu := mem_uniqueSorted hx
  refine ⟨encIdx_lt hxu, ?_, ?_⟩
  · have := lookupIdx_aux (uniqueSorted labels) 0 (label_encode labels x) x
      (nth_encIdx hxu)
    simpa using this
  · intro y hy heq
    have hyu := mem_uniqueSorted hy
    have h1 := nth_encIdx hxu
    have h2 := nth_encIdx hyu
    have heq2 : encIdx y (uniqueSorted labels) = encIdx x (uniqueSorted labels) :=
      heq
    rw [heq2, h1] at h2
    cases h2
    rfl

/-- The label column of the spec's testable property. -/
def labelsExample : List (List Char) :=
  ["POLITICS".toList, "SPORTS".toList, "POLITICS".toList]

/-- Witness for claim C5 on the label column `["POLITICS","SPORTS","POLITICS"]`. -/
theorem C5_label_roundtrip_witness :
    label_encode labelsExample ("SPORTS".toList) <
      (uniqueSorted labelsExample).length ∧
    label_decode labelsExample (label_encode labelsExample ("SPORTS".toList)) =
      some ("SPORTS".toList) ∧
    label_encode labelsExample ("SPORTS".toList) = 1 :=
  ⟨(C5_label_roundtrip labelsExample ("SPORTS".toList) (by decide)).1,
   (C5_label_roundtrip labelsExample ("SPORTS".toList) (by decide)).2.1,
   by decide⟩

/-- A string with a digit run at the head of a mixed token. -/
def c6Input : List Char := "a 12x".toList

/-- Claim C6, counterexample: `remove_digits` does not remove exactly the
standalone numeric tokens: on `"a 12x"` the whitespace-plus-digit-run `" 12"`
inside the non-numeric token `"12x"` is replaced by a space, so the digits
embedded at the head of that token are affected even though `"12x"` is not a
standalone numeric token. -/
theorem C6_digits_cex :
    remove_digits c6Input = "a x".toList ∧ remove_digits c6Input ≠ c6Input := by
  refine ⟨by decide, by decide⟩

/-- Claim C6, amended: `remove_digits` replaces every whitespace character
that is immediately followed by a digit, together with the maximal digit run
after it, by a single space (resuming after the run), and leaves every other
character unchanged; in particular digit runs not immediately preceded by
whitespace (at the start of the string, or embedded after non-digit
characters inside a token) are unaffected. -/
theorem C6_digits_amended :
    ∀ l : List Char, remove_digits l = digitSpec l := by
  intro l
  exact subAllF_digits_eq l.length l.length none l (Nat.le_refl _) (Nat.le_refl _)

/-- Claim C7: modelling the random split as an arbitrary permutation of the
retained rows and a cut index, the training and held-out partitions have row
counts summing to the input row count, and their concatenation is a
permutation of the input rows, so every row lands in exactly one partition
and none is duplicated or dropped. -/
theorem C7_split_partition :
    ∀ (rows shuffled : List (List Char × List Char)) (k : Nat),
      shuffled.Perm rows →
      (train_test_split shuffled k).1.length +
        (train_test_split shuffled k).2.length = rows.length ∧
      ((train_test_split shuffled k).1 ++
        (train_test_split shuffled k).2).Perm rows := by
  intro rows shuffled k hperm
  have happ : (train_test_split shuffled k).1 ++ (train_test_split shuffled k).2
      = shuffled := List.take_append_drop k shuffled
  constructor
  · have hlen := congrArg List.length happ
    rw [List.length_append] at hlen
    rw [hlen, hperm.length_eq]
  · rw [happ]
    exact hperm

/-- The three-row example dataset for the split witness. -/
def rowsExample : List (List Char × List Char) :=
  [("a".toList, "X".toList), ("b".toList, "Y".toList), ("c".toList, "X".toList)]

/-- A shuffle of the example dataset. -/
def shuffledExample : List (List Char × List Char) :=
  [("c".toList, "X".toList), ("a".toList, "X".toList), ("b".toList, "Y".toList)]

/-- Witness for claim C7 on a concrete three-row dataset with a concrete
shuffle and cut index 2. -/
theorem C7_split_partition_witness :
    (train_test_split shuffledExample 2).1.length +
      (train_test_split shuffledExample 2).2.length = rowsExample.length ∧
    ((train_test_split shuffledExample 2).1 ++
      (train_test_split shuffledExample 2).2).Perm rowsExample :=
  C7_split_partition rowsExample shuffledExample 2 (by decide)

/-- Claim C8: the replace-empty-with-missing and drop-missing-sentence cells
drop exactly the rows whose sentence is the empty string and keep every row
with a non-empty sentence, in order; no error is involved, the composite is a
total filter. -/
theorem C8_empty_rows_dropped :
    ∀ rows : List (List Char × List Char),
      drop_empty rows = (rows.filter (fun r => !r.1.isEmpty)).map
        (fun r => (some r.1, if r.2.isEmpty then none else some r.2)) := by
  intro rows
  induction rows with
  | nil => rfl
  | cons r rs ih =>
    have hre : replace_empty (r :: rs) =
        (if r.1.isEmpty then none else some r.1,
         if r.2.isEmpty then none else some r.2) :: replace_empty rs := rfl
    show dropna_sentence (replace_empty (r :: rs)) = _
    rw [hre, dropna_sentence, List.filter_cons, List.filter_cons]
    simp [drop_empty, dropna_sentence] at ih
    cases he : r.1.isEmpty with
    | true => simp [he, ih]
    | false => simp [he, ih]

/-- Claim C9: every stage is a total function on strings, and a stage whose
pattern finds no match (at any scan position for the scanner stages, at any
character for the character-wise stages) leaves the string unchanged; the
corpus loop always yields exactly one output document per input document. -/
theorem C9_stages_graceful :
    ∀ l : List Char,
      ((∀ (p : Option Char) (c : Char) (cs : List Char), (c :: cs) <:+ l →
          matchEmail p (c :: cs) = none) → remove_emails l = l) ∧
      ((∀ (p : Option Char) (c : Char) (cs : List Char), (c :: cs) <:+ l →
          matchHyper p (c :: cs) = none) → remove_hyperlink l = l) ∧
      ((∀ (p : Option Char) (c : Char) (cs : List Char), (c :: cs) <:+ l →
          matchDigits p (c :: cs) = none) → remove_digits l = l) ∧
      ((∀ c ∈ l, isNewlineClass c = false) → collapse_newlines l = l) ∧
      ((∀ c ∈ l, isSpacingSpecial c = false) → special_spacing l = l) ∧
      ((∀ c ∈ l, alphaOrSpace c = true) → remove_special_characters l = l) ∧
      ((∀ c ∈ l, c.toNat < 128) → remove_accented_chars l = l) ∧
      ((∀ c ∈ l, pyLower c = c) → l.map pyLower = l) ∧
      ∀ (R : NlpResources) (cfg : NormalizationConfig)
        (corpus : List (List Char)),
        (text_preprocessing R cfg corpus).length = corpus.length := by
  intro l
  refine ⟨?_, ?_, ?_, collapse_newlines_id, special_spacing_id,
    remove_special_characters_id, remove_accented_chars_id, map_pyLower_id,
    ?_⟩
  · intro hm
    exact subAllF_id hm (List.suffix_refl l) (Nat.le_refl _)
  · intro hm
    exact subAllF_id hm (List.suffix_refl l) (Nat.le_refl _)
  · intro hm
    exact subAllF_id hm (List.suffix_refl l) (Nat.le_refl _)
  · intro R cfg corpus
    exact List.length_map corpus _

/-- Witness for claim C9 at the one-character string `"a"`, whose patterns
never match, and a two-document corpus. -/
theorem C9_stages_graceful_witness :
    remove_emails ['a'] = ['a'] ∧ remove_hyperlink ['a'] = ['a'] ∧
    remove_digits ['a'] = ['a'] ∧ collapse_newlines ['a'] = ['a'] ∧
    special_spacing ['a'] = ['a'] ∧ remove_special_characters ['a'] = ['a'] ∧
    remove_accented_chars ['a'] = ['a'] ∧ ['a'].map pyLower = ['a'] ∧
    (text_preprocessing concreteRes observedConfig [['a'], []]).length = 2 := by
  have h := C9_stages_graceful ['a']
  have hsub : ∀ (c : Char) (cs : List Char), (c :: cs) <:+ ['a'] →
      ∀ x ∈ c :: cs, x = 'a' := by
    intro c cs hsuf x hx
    have : x ∈ ['a'] := hsuf.sublist.subset hx
    simpa using this
  refine ⟨?_, ?_, ?_, ?_, ?_, ?_, ?_, ?_, ?_⟩
  · exact h.1 (fun p c cs hsuf => matchEmail_none
      (fun x hx => by rw [hsub c cs hsuf x hx]; decide))
  · exact h.2.1 (fun p c cs hsuf => matchHyper_none
      (fun x hx => by rw [hsub c cs hsuf x hx]; decide))
  · exact h.2.2.1 (fun p c cs hsuf => matchDigits_none
      (fun x hx => by rw [hsub c cs hsuf x hx]; decide))
  · exact h.2.2.2.1 (by decide)
  · exact h.2.2.2.2.1 (by decide)
  · exact h.2.2.2.2.2.1 (by decide)
  · exact h.2.2.2.2.2.2.1 (by decide)
  · exact h.2.2.2.2.2.2.2.1 (by decide)
  · exact h.2.2.2.2.2.2.2.2 concreteRes observedConfig [['a'], []]

/-- Claim C10: the output of `remove_stopwords` does not depend on its
`is_lower_case` argument: the body always filters on the lower-cased token,
and never reads the flag. -/
theorem C10_stopwords_flag_independent :
    ∀ (tokenize : List Char → List (List Char))
      (stop_list : List (List Char)) (text : List Char) (b1 b2 : Bool),
      remove_stopwords tokenize stop_list text b1 =
        remove_stopwords tokenize stop_list text b2 :=
  fun _ _ _ _ _ => rfl
